import Mathlib

/-!
# Verification of the obsidian-tables table view-engine

Shallow embedding of the core of the `obsidian-tables` plugin: the table
data model (`src/types.ts` shapes as used throughout), the filter engine
(`src/FilterHandler.ts`, `getFilteredRows`), the sort engine
(`src/SortHandler.ts`, `sortDataInMemory`), the render controller's
structural operations (`src/TableRenderer.ts`: cell edit redraw condition,
add row, add column, delete column) and the two persistence read paths
(`src/fileHandlers/ITableFileHandler.ts` = JsonFileHandler,
`src/fileHandlers/MarkdownFileHandler.ts`).

Modelling conventions
* JavaScript strings are Lean `String`s; `v || ''` on a string becomes
  `Option.getD` / identity, and string truthiness is `≠ ""`.
* Optional / possibly-absent object fields are `Option`; a JS field that
  is absent or holds a falsy non-object is `none`.
* `Array.prototype.sort` with the handler's comparator is modelled as a
  stable insertion sort (`sortByCmp`).  The handler's comparator is
  consistent (it is induced by a key function into a total preorder), and
  for consistent comparators the ECMAScript specification makes `sort`
  produce the unique stable sorted permutation, which is exactly what
  stable insertion sort computes.
* `String.prototype.localeCompare` (applied after emoji stripping and
  lower-casing) is modelled as comparison in the code-point order on
  `String`; the claims proved here depend only on it being a total
  comparison that is `0` exactly on equal strings.
* `String.prototype.toLowerCase` is modelled with `Char.toLower`
  (ASCII lowering); `trim` with `String.trim`.
* `Date.now()` is an explicit `now : Nat` parameter.
-/

namespace ObsidianTables

/-- A cell: `{ column: column id reference, value: string }` (`src/types.ts`). -/
structure CellData where
  column : String
  value : String
deriving DecidableEq, Repr

/-- A row is an ordered sequence of cells. -/
abbrev Row := List CellData

/-- A dropdown / multiselect option `{ value, style }`. -/
structure DropdownOption where
  value : String
  style : String
deriving DecidableEq, Repr

/-- The nested `typeOptions` bag; each variant field is optional. -/
structure TypeOpts where
  dateFormat : Option String := none
  options : Option (List DropdownOption) := none
  suggestAllFiles : Option Bool := none
deriving DecidableEq, Repr

/-- A column definition.  `type` is kept as a plain string, as in the
TypeScript source; the possibly-absent fields (`typeOptions` and the
legacy flat `dateFormat` / `options` / `suggestAllFiles` properties that
the load-time migration moves into `typeOptions`) are `Option`s. -/
structure ColumnDef where
  id : String
  name : String
  type : String
  width : Option Int := none
  typeOptions : Option TypeOpts := none
  dateFormat : Option String := none
  options : Option (List DropdownOption) := none
  suggestAllFiles : Option Bool := none
deriving DecidableEq, Repr

/-- `SortRule`: `{ columnId, direction: asc|desc }`. -/
structure SortRule where
  columnId : String
  direction : String
deriving DecidableEq, Repr

/-- `FilterRule`: `{ id, columnId, operator, value?: string }`. -/
structure FilterRule where
  id : String
  columnId : String
  operator : String
  value : Option String := none
deriving DecidableEq, Repr

/-- A view definition; `sort` / `filter` are `Option` because a raw
persisted view may lack them (the handlers and the sort/filter handler
constructors default them to `[]`). -/
structure ViewDef where
  id : String
  name : String
  sort : Option (List SortRule) := none
  filter : Option (List FilterRule) := none
deriving DecidableEq, Repr

/-- The in-memory table: `{ columns, rows, views }`. -/
structure TableData where
  columns : List ColumnDef
  rows : List Row
  views : List ViewDef
deriving DecidableEq, Repr

/-- `this.data.views?.[0]?.sort || []` (`SortHandler.getCurrentSortRules`). -/
def getCurrentSortRules (data : TableData) : List SortRule :=
  (data.views.head?.bind (·.sort)).getD []

/-- `this.data.views?.[0]?.filter || []` (`FilterHandler.getCurrentFilterRules`). -/
def getCurrentFilterRules (data : TableData) : List FilterRule :=
  (data.views.head?.bind (·.filter)).getD []

/-- `row.find(cell => cell.column === columnId)?.value || ''`:
the value a row holds for a column, defaulting a missing cell to `""`. -/
def getCellValue (row : Row) (columnId : String) : String :=
  ((row.find? (fun c => c.column == columnId)).map (·.value)).getD ""

/-- Model of `String.prototype.toLowerCase` (ASCII lowering), computed on
the character list. -/
def jsToLower (s : String) : String := ⟨s.data.map Char.toLower⟩

/-- Model of `String.prototype.includes`: `sub` occurs as a contiguous
substring of `s` (at some drop position of the character list). -/
def jsIncludes (s sub : String) : Bool :=
  (List.range (s.data.length + 1)).any (fun i => sub.data.isPrefixOf (s.data.drop i))

/-- Model of `String.prototype.startsWith`. -/
def jsStartsWith (s p : String) : Bool := p.data.isPrefixOf s.data

/-- Model of `String.prototype.endsWith`. -/
def jsEndsWith (s p : String) : Bool := p.data.isSuffixOf s.data

/-- One filter rule applied to one row: the `switch (rule.operator)` body
of `FilterHandler.getFilteredRows`.  Unknown operators are fail-open. -/
def rulePasses (row : Row) (rule : FilterRule) : Bool :=
  let cellValue := getCellValue row rule.columnId
  let filterValue := rule.value.getD ""
  let cellValueLower := jsToLower cellValue
  let filterValueLower := jsToLower filterValue
  if rule.operator == "contains" then jsIncludes cellValueLower filterValueLower
  else if rule.operator == "doesNotContain" then !(jsIncludes cellValueLower filterValueLower)
  else if rule.operator == "startsWith" then jsStartsWith cellValueLower filterValueLower
  else if rule.operator == "endsWith" then jsEndsWith cellValueLower filterValueLower
  else if rule.operator == "isEmpty" then cellValue == ""
  else if rule.operator == "isNotEmpty" then cellValue != ""
  else if rule.operator == "equals" then cellValueLower == filterValueLower
  else if rule.operator == "notEqual" then cellValueLower != filterValueLower
  else true

/-- `FilterHandler.getFilteredRows`: with no rules the row array itself is
returned; otherwise the rows that satisfy every rule (AND logic). -/
def getFilteredRows (rows : List Row) (rules : List FilterRule) : List Row :=
  if rules.isEmpty then rows
  else rows.filter (fun row => rules.all (fun rule => rulePasses row rule))

/-- `FilterHandler.hasActiveFilters`. -/
def hasActiveFilters (data : TableData) : Bool :=
  (getCurrentFilterRules data).length > 0

theorem mem_getFilteredRows {rows : List Row} {rules : List FilterRule} {r : Row}
    (h : r ∈ getFilteredRows rows rules) :
    r ∈ rows ∧ ∀ rule ∈ rules, rulePasses r rule = true := by
  unfold getFilteredRows at h
  by_cases hr : rules.isEmpty
  · rw [if_pos hr] at h
    rcases rules with _ | ⟨a, l⟩
    · exact ⟨h, by simp⟩
    · simp at hr
  · rw [if_neg hr] at h
    rw [List.mem_filter] at h
    refine ⟨h.1, ?_⟩
    have := h.2
    rw [List.all_eq_true] at this
    exact this

theorem getFilteredRows_mem_of {rows : List Row} {rules : List FilterRule} {r : Row}
    (hmem : r ∈ rows) (hall : ∀ rule ∈ rules, rulePasses r rule = true) :
    r ∈ getFilteredRows rows rules := by
  unfold getFilteredRows
  by_cases hr : rules.isEmpty
  · rw [if_pos hr]; exact hmem
  · rw [if_neg hr, List.mem_filter]
    exact ⟨hmem, by rw [List.all_eq_true]; exact hall⟩

theorem nil_isPrefixOf (l : List Char) : List.isPrefixOf ([] : List Char) l = true := by
  cases l <;> rfl

theorem jsIncludes_empty_right (s : String) : jsIncludes s "" = true := by
  unfold jsIncludes
  rw [List.any_eq_true]
  exact ⟨0, by simp, nil_isPrefixOf _⟩

theorem rulePasses_doesNotContain_empty (row : Row) (rule : FilterRule)
    (hop : rule.operator = "doesNotContain")
    (hval : rule.value = none ∨ rule.value = some "") :
    rulePasses row rule = false := by
  have hv : rule.value.getD "" = "" := by rcases hval with h | h <;> simp [h]
  unfold rulePasses
  rw [hop, hv]
  have hlow : jsToLower "" = "" := rfl
  simp only [hlow]
  simp [jsIncludes_empty_right]

theorem all_eq_false_of_mem_false {α : Type} {l : List α} {p : α → Bool} {a : α}
    (hmem : a ∈ l) (hfalse : p a = false) : l.all p = false := by
  rw [List.all_eq_false]
  exact ⟨a, hmem, by rw [hfalse]; simp⟩

/-- C2: for every row set and all filter rule sets `R1`, `R2`, a row
visible under the combined rule set `R1 ++ R2` is visible under `R1`
alone and under `R2` alone: the AND-composed filter result is contained
in the intersection of the individual results, so adding a rule never
increases the visible set. -/
theorem filter_and_composition (rows : List Row) (R1 R2 : List FilterRule) (r : Row)
    (h : r ∈ getFilteredRows rows (R1 ++ R2)) :
    r ∈ getFilteredRows rows R1 ∧ r ∈ getFilteredRows rows R2 := by
  obtain ⟨hmem, hall⟩ := mem_getFilteredRows h
  constructor
  · exact getFilteredRows_mem_of hmem (fun rule hr => hall rule (List.mem_append_left _ hr))
  · exact getFilteredRows_mem_of hmem (fun rule hr => hall rule (List.mem_append_right _ hr))

theorem filter_and_composition_witness :
    ([⟨"c1", "x"⟩] : Row) ∈
        getFilteredRows [[⟨"c1", "x"⟩]] [⟨"f1", "c1", "contains", some "x"⟩] ∧
      ([⟨"c1", "x"⟩] : Row) ∈
        getFilteredRows [[⟨"c1", "x"⟩]] [⟨"f2", "c1", "isNotEmpty", none⟩] :=
  filter_and_composition [[⟨"c1", "x"⟩]]
    [⟨"f1", "c1", "contains", some "x"⟩] [⟨"f2", "c1", "isNotEmpty", none⟩]
    [⟨"c1", "x"⟩] (by decide)

/-- C9: a `doesNotContain` rule with a missing or empty comparison value
makes `getFilteredRows` return the empty list — every row (including rows
whose cell is empty) fails the rule, because every string contains the
empty string. -/
theorem doesNotContain_empty_hides_all (rows : List Row) (rules : List FilterRule)
    (rule : FilterRule) (hmem : rule ∈ rules)
    (hop : rule.operator = "doesNotContain")
    (hval : rule.value = none ∨ rule.value = some "") :
    getFilteredRows rows rules = [] := by
  unfold getFilteredRows
  have hne : rules.isEmpty = false := by
    cases rules with
    | nil => cases hmem
    | cons a l => rfl
  rw [hne]
  simp only [Bool.false_eq_true, if_false]
  rw [List.filter_eq_nil_iff]
  intro row _hrow
  rw [all_eq_false_of_mem_false hmem (rulePasses_doesNotContain_empty row rule hop hval)]
  simp

theorem doesNotContain_empty_hides_all_witness :
    getFilteredRows [[⟨"c1", "abc"⟩], [⟨"c1", ""⟩], []]
      [⟨"f1", "c1", "doesNotContain", some ""⟩] = [] :=
  doesNotContain_empty_hides_all _ _ ⟨"f1", "c1", "doesNotContain", some ""⟩
    (by decide) rfl (Or.inr rfl)

/-! ## Persistence read paths

`JsonFileHandler.read` (`src/fileHandlers/ITableFileHandler.ts`) and
`MarkdownFileHandler.read` (`src/fileHandlers/MarkdownFileHandler.ts`).
A raw persisted field that should be an array can be absent, a non-array
value (whose JS truthiness we record), or an actual array. -/

/-- A raw JSON field expected to hold an array. -/
inductive RawArr (α : Type) where
  | missing
  | notArray (truthy : Bool)
  | array (xs : List α)
deriving DecidableEq, Repr

/-- JS truthiness of a raw array field (`!data.rows` etc.); arrays are
always truthy, even when empty. -/
def RawArr.truthy {α : Type} : RawArr α → Bool
  | .missing => false
  | .notArray t => t
  | .array _ => true

/-- The raw shape produced by `JSON.parse` on a persisted table document
(a non-object parse result behaves like all three fields missing). -/
structure RawTable where
  columns : RawArr ColumnDef
  rows : RawArr Row
  views : RawArr ViewDef
deriving DecidableEq, Repr

/-- A handler `read` result: after normalization `columns` and `views`
are genuine lists, but `JsonFileHandler.read` never forces `rows` into an
array, so the returned `rows` keeps its raw shape. -/
structure ReadResult where
  columns : List ColumnDef
  rows : RawArr Row
  views : List ViewDef
deriving DecidableEq, Repr

/-- The errors a handler `read` can throw.  `invalidJson` covers both a
`JSON.parse` failure and a `TypeError` raised inside the `try` block
(both are caught and re-thrown as an `Invalid JSON` error);
`structure` is the explicit invalid-table-structure error;
`noBlock` covers the Markdown handler's missing-code-block errors. -/
inductive LoadError where
  | invalidJson
  | structureError
  | noBlock
deriving DecidableEq, Repr

/-- The synthesized default view
`{ id: 'default_'+Date.now(), name: 'Default', sort: [], filter: [] }`. -/
def defaultView (now : Nat) : ViewDef :=
  { id := "default_" ++ toString now, name := "Default", sort := some [], filter := some [] }

/-- JS truthiness of an optional string field (absent and `""` are falsy). -/
def truthyStr (o : Option String) : Bool :=
  match o with
  | none => false
  | some s => !(s == "")

/-- `JsonFileHandler.read`, views migration step: replace an absent,
non-array or empty `views` by the default view; otherwise default the
first view's `sort` / `filter` to `[]` when falsy. -/
def normalizeViewsJson (now : Nat) (views : RawArr ViewDef) : List ViewDef :=
  match views with
  | .array (v :: vs) =>
      ({ v with sort := some (v.sort.getD []), filter := some (v.filter.getD []) } : ViewDef) :: vs
  | _ => [defaultView now]

/-- `MarkdownFileHandler.read`, views migration step: same default view,
but only the first view's `sort` is defaulted — `filter` is left as is. -/
def normalizeViewsMd (now : Nat) (views : RawArr ViewDef) : List ViewDef :=
  match views with
  | .array (v :: vs) => ({ v with sort := some (v.sort.getD []) } : ViewDef) :: vs
  | _ => [defaultView now]

/-- `JsonFileHandler.read`, per-column `typeOptions` migration: when
`typeOptions` is absent/falsy it is initialized to `{}` and the legacy
flat properties are moved in, gated on the column type. -/
def migrateColumnJson (col : ColumnDef) : ColumnDef :=
  match col.typeOptions with
  | some _ => col
  | none =>
      let dfMove := col.type == "date" && truthyStr col.dateFormat
      let optMove := (col.type == "dropdown" || col.type == "multiselect") && col.options.isSome
      let safMove := col.type == "notelink" && col.suggestAllFiles.isSome
      { col with
        typeOptions := some
          { dateFormat := if dfMove then col.dateFormat else none,
            options := if optMove then col.options else none,
            suggestAllFiles := if safMove then col.suggestAllFiles else none },
        dateFormat := if dfMove then none else col.dateFormat,
        options := if optMove then none else col.options,
        suggestAllFiles := if safMove then none else col.suggestAllFiles }

/-- `MarkdownFileHandler.read`, per-column `typeOptions` migration: like
the JSON one but the legacy property moves are not gated on the column
type. -/
def migrateColumnMd (col : ColumnDef) : ColumnDef :=
  match col.typeOptions with
  | some _ => col
  | none =>
      let dfMove := truthyStr col.dateFormat
      let optMove := col.options.isSome
      let safMove := col.suggestAllFiles.isSome
      { col with
        typeOptions := some
          { dateFormat := if dfMove then col.dateFormat else none,
            options := if optMove then col.options else none,
            suggestAllFiles := if safMove then col.suggestAllFiles else none },
        dateFormat := if dfMove then none else col.dateFormat,
        options := if optMove then none else col.options,
        suggestAllFiles := if safMove then none else col.suggestAllFiles }

/-- The content of a `.table.json` file as far as `JsonFileHandler.read`
distinguishes it: empty, unparsable JSON, or a parsed raw table. -/
inductive JsonContent where
  | emptyFile
  | invalidJson
  | parsed (raw : RawTable)
deriving DecidableEq, Repr

/-- `JsonFileHandler.read`.  The empty file returns the default structure;
a parse failure throws; otherwise: views migration, then the column
`typeOptions` migration (`data.columns.forEach`, which raises a
`TypeError` — caught and re-thrown as an `Invalid JSON` error — when
`columns` is not an array), then the validation
`if (!data.columns || !data.rows || !data.views) throw` (a truthiness
check only, so a truthy non-array `rows` passes). -/
def jsonHandlerRead (now : Nat) : JsonContent → Except LoadError ReadResult
  | .emptyFile => .ok ⟨[], .array [], [defaultView now]⟩
  | .invalidJson => .error .invalidJson
  | .parsed raw =>
      let views := normalizeViewsJson now raw.views
      match raw.columns with
      | .array cols =>
          if raw.rows.truthy then .ok ⟨cols.map migrateColumnJson, raw.rows, views⟩
          else .error .structureError
      | _ => .error .invalidJson

/-- The content of a `.table.md` file as far as `MarkdownFileHandler.read`
distinguishes it: no code block start / no end marker, a present but
empty `json-table` block, an unparsable block, or a parsed raw table. -/
inductive MdContent where
  | noBlockStart
  | noBlockEnd
  | emptyBlock
  | invalidJson
  | parsed (raw : RawTable)
deriving DecidableEq, Repr

/-- `MarkdownFileHandler.read`.  A present-but-empty code block returns
the default structure; otherwise the parsed data is validated first
(`Array.isArray` on both `columns` and `rows` — the thrown validation
error is re-thrown by the surrounding catch as an `Invalid embedded
JSON` error, modelled as `structureError` since it is the handler's
explicit structure check), then views and `typeOptions` migration run. -/
def mdHandlerRead (now : Nat) : MdContent → Except LoadError ReadResult
  | .noBlockStart => .error .noBlock
  | .noBlockEnd => .error .noBlock
  | .emptyBlock => .ok ⟨[], .array [], [defaultView now]⟩
  | .invalidJson => .error .invalidJson
  | .parsed raw =>
      match raw.columns, raw.rows with
      | .array cols, .array rows =>
          .ok ⟨(cols.map migrateColumnMd), .array rows, normalizeViewsMd now raw.views⟩
      | _, _ => .error .structureError

/-- Whether a raw field actually holds an array (`Array.isArray`). -/
def RawArr.isArrayShape {α : Type} : RawArr α → Bool
  | .array _ => true
  | _ => false

/-- C10: loading an empty persisted document does not fail: an empty
`.table.json` file and a `.table.md` file with a present-but-empty
`json-table` code block both produce a valid empty table — no columns,
no rows, and exactly one default view with empty sort and filter
arrays — instead of a structure error. -/
theorem empty_document_load_succeeds (now : Nat) :
    jsonHandlerRead now .emptyFile =
        .ok ⟨[], .array [], [⟨"default_" ++ toString now, "Default", some [], some []⟩]⟩ ∧
      mdHandlerRead now .emptyBlock =
        .ok ⟨[], .array [], [⟨"default_" ++ toString now, "Default", some [], some []⟩]⟩ :=
  ⟨rfl, rfl⟩

/-- C4 counterexample: the claim says every raw input whose `rows` is not
an array (after normalization) makes the load throw a structure error,
but `JsonFileHandler.read` only checks `!data.rows` — a parsed document
with `columns: []` and a truthy non-array `rows` value is returned as a
table instead of failing. -/
theorem load_failure_counterexample :
    jsonHandlerRead 0 (.parsed ⟨.array [], .notArray true, .missing⟩) =
      .ok ⟨[], .notArray true, [defaultView 0]⟩ := rfl

/-- C4 (amended): the Markdown handler's read throws its structure error
whenever `columns` or `rows` is not an array; the JSON handler's read
throws when `columns` is not an array (the migration loop's `TypeError`,
re-thrown as an invalid-JSON error) and throws its structure error when
`rows` is absent or falsy — but a truthy non-array `rows` value is
accepted by the JSON handler and a table is returned. -/
theorem load_failure_on_malformed_structure :
    (∀ (now : Nat) (raw : RawTable),
        raw.columns.isArrayShape = false ∨ raw.rows.isArrayShape = false →
          mdHandlerRead now (.parsed raw) = .error .structureError) ∧
      (∀ (now : Nat) (raw : RawTable),
        raw.columns.isArrayShape = false →
          jsonHandlerRead now (.parsed raw) = .error .invalidJson) ∧
      (∀ (now : Nat) (raw : RawTable),
        raw.rows.truthy = false →
          jsonHandlerRead now (.parsed raw) =
            .error (if raw.columns.isArrayShape then .structureError else .invalidJson)) := by
  refine ⟨?_, ?_, ?_⟩
  · rintro now ⟨cols, rows, views⟩ h
    rcases h with h | h <;>
      cases cols <;> cases rows <;> simp_all [RawArr.isArrayShape, mdHandlerRead]
  · rintro now ⟨cols, rows, views⟩ h
    cases cols <;> simp_all [RawArr.isArrayShape, jsonHandlerRead]
  · rintro now ⟨cols, rows, views⟩ h
    cases cols <;>
      simp_all [RawArr.isArrayShape, jsonHandlerRead, RawArr.truthy]

theorem load_failure_on_malformed_structure_witness :
    mdHandlerRead 3 (.parsed ⟨.missing, .array [], .missing⟩) = .error .structureError ∧
      jsonHandlerRead 3 (.parsed ⟨.notArray true, .array [], .missing⟩) = .error .invalidJson ∧
      jsonHandlerRead 3 (.parsed ⟨.array [], .missing, .missing⟩) = .error .structureError :=
  ⟨load_failure_on_malformed_structure.1 3 ⟨.missing, .array [], .missing⟩ (Or.inl rfl),
    load_failure_on_malformed_structure.2.1 3 ⟨.notArray true, .array [], .missing⟩ rfl,
    load_failure_on_malformed_structure.2.2 3 ⟨.array [], .missing, .missing⟩ rfl⟩

theorem migrateColumnJson_typeOptions_isSome (col : ColumnDef) :
    (migrateColumnJson col).typeOptions.isSome = true := by
  unfold migrateColumnJson
  cases h : col.typeOptions <;> simp [h]

theorem migrateColumnMd_typeOptions_isSome (col : ColumnDef) :
    (migrateColumnMd col).typeOptions.isSome = true := by
  unfold migrateColumnMd
  cases h : col.typeOptions <;> simp [h]

/-- Both handlers' successful `read` leaves every column with a
`typeOptions` object present (the migration initializes it to `{}` when
absent). -/
theorem load_normalization_typeOptions_present :
    (∀ (now : Nat) (content : JsonContent) (result : ReadResult),
        jsonHandlerRead now content = .ok result →
          ∀ col ∈ result.columns, col.typeOptions.isSome = true) ∧
      ∀ (now : Nat) (content : MdContent) (result : ReadResult),
        mdHandlerRead now content = .ok result →
          ∀ col ∈ result.columns, col.typeOptions.isSome = true := by
  constructor
  · intro now content result hok col hmem
    cases content with
    | emptyFile =>
        cases hok
        cases hmem
    | invalidJson => cases hok
    | parsed raw =>
        rcases raw with ⟨cols, rows, views⟩
        cases cols with
        | array xs =>
            simp only [jsonHandlerRead] at hok
            by_cases ht : (RawArr.truthy rows : Bool)
            · rw [if_pos ht] at hok
              cases hok
              simp only [List.mem_map] at hmem
              obtain ⟨c, _, rfl⟩ := hmem
              exact migrateColumnJson_typeOptions_isSome c
            · rw [if_neg ht] at hok
              cases hok
        | missing => cases hok
        | notArray t => cases hok
  · intro now content result hok col hmem
    cases content with
    | noBlockStart => cases hok
    | noBlockEnd => cases hok
    | emptyBlock =>
        cases hok
        cases hmem
    | invalidJson => cases hok
    | parsed raw =>
        rcases raw with ⟨cols, rows, views⟩
        cases cols with
        | array xs =>
            cases rows with
            | array rs =>
                cases hok
                simp only [List.mem_map] at hmem
                obtain ⟨c, _, rfl⟩ := hmem
                exact migrateColumnMd_typeOptions_isSome c
            | missing => cases hok
            | notArray t => cases hok
        | missing => cases rows <;> cases hok
        | notArray t => cases rows <;> cases hok

/-- A legacy persisted date column with a flat `dateFormat` and no
`typeOptions`, used as a concrete load-migration input. -/
def legacyDateColumn : ColumnDef :=
  { id := "c1", name := "A", type := "date", dateFormat := some "YYYY/MM/DD" }

theorem migrateColumnJson_id (col : ColumnDef) : (migrateColumnJson col).id = col.id := by
  unfold migrateColumnJson
  cases h : col.typeOptions <;> rfl

theorem migrateColumnMd_id (col : ColumnDef) : (migrateColumnMd col).id = col.id := by
  unfold migrateColumnMd
  cases h : col.typeOptions <;> rfl

/-- The column-id half of the data-model invariant: every id non-empty
and pairwise distinct. -/
def columnIdsOk (cols : List ColumnDef) : Prop :=
  (∀ c ∈ cols, c.id ≠ "") ∧ cols.Pairwise (fun a b => a.id ≠ b.id)

instance (cols : List ColumnDef) : Decidable (columnIdsOk cols) := by
  unfold columnIdsOk
  infer_instance

theorem columnIdsOk_of_sublist {l' l : List ColumnDef} (hs : l'.Sublist l)
    (h : columnIdsOk l) : columnIdsOk l' :=
  ⟨fun c hc => h.1 c (hs.subset hc), List.Pairwise.sublist hs h.2⟩

theorem columnIdsOk_of_perm {l l' : List ColumnDef} (hp : l.Perm l')
    (h : columnIdsOk l) : columnIdsOk l' := by
  refine ⟨fun c hc => h.1 c (hp.mem_iff.mpr hc), ?_⟩
  exact (hp.pairwise_iff (fun h' => h'.symm)).mp h.2

/-! ## Render controller structural operations (`src/TableRenderer.ts`) -/

/-- JS whitespace trim on a character list. -/
def jsTrimList (l : List Char) : List Char :=
  ((l.dropWhile Char.isWhitespace).reverse.dropWhile Char.isWhitespace).reverse

/-- Model of `String.prototype.trim` (Lean's `Char.isWhitespace` covers
the ASCII whitespace JS trims; the extra Unicode spaces JS also trims do
not affect the claims proved here). -/
def jsTrim (s : String) : String := ⟨jsTrimList s.data⟩

/-- The three seeded options added to a new dropdown/multiselect column
(`showAddColumnDialog`). -/
def defaultDropdownOptions : List DropdownOption :=
  [⟨"To Do", "red"⟩, ⟨"In Progress", "blue"⟩, ⟨"Done", "green"⟩]

/-- The `extraProps` object passed to `addColumn` by the add-column
dialog: dropdown/multiselect get `{typeOptions: {options: …}}`, date
gets the legacy flat `{dateFormat: 'YYYY/MM/DD'}`, everything else `{}`. -/
inductive AddColumnExtra where
  | noExtra
  | seededOptions
  | dateFmt
deriving DecidableEq, Repr

/-- Which `extraProps` the add-column dialog builds for a column type. -/
def extraPropsFor (columnType : String) : AddColumnExtra :=
  if columnType == "dropdown" || columnType == "multiselect" then .seededOptions
  else if columnType == "date" then .dateFmt
  else .noExtra

/-- `TableRenderer.showAddColumnDialog`'s `addColumn`: build the new
column `{ id: 'col_'+Date.now(), name, type, width: 150, ...extraProps }`,
append it, and append an empty-string cell for it to every row. -/
def addColumn (data : TableData) (now : Nat) (columnType typeName nameInput : String)
    (extra : AddColumnExtra) : TableData :=
  let columnName := if jsTrim nameInput == "" then typeName else jsTrim nameInput
  let columnId := "col_" ++ toString now
  let newCol : ColumnDef :=
    { id := columnId, name := columnName, type := columnType, width := some 150,
      typeOptions :=
        match extra with
        | .seededOptions => some { options := some defaultDropdownOptions }
        | _ => none,
      dateFormat := match extra with | .dateFmt => some "YYYY/MM/DD" | _ => none }
  { data with columns := data.columns ++ [newCol],
              rows := data.rows.map (fun row => row ++ [⟨columnId, ""⟩]) }

/-- The add-column dialog action for a chosen column type. -/
def addColumnOfType (data : TableData) (now : Nat) (columnType typeName nameInput : String) :
    TableData :=
  addColumn data now columnType typeName nameInput (extraPropsFor columnType)

/-- A persisted column with the empty string as its id. -/
def emptyIdColumnA : ColumnDef := { id := "", name := "A", type := "text" }

/-- A second persisted column with the same empty id. -/
def emptyIdColumnB : ColumnDef := { id := "", name := "B", type := "text" }

/-- C5 counterexample: both halves of the claimed invariant fail in
reachable states.  The `typeOptions` half: adding a text column to the
freshly-loaded empty table produces a column whose `typeOptions` is
absent (`addColumn` only attaches `typeOptions` for dropdown /
multiselect).  The id half: loading a persisted table whose two columns
both carry the empty id succeeds — neither handler validates ids — and
returns those columns with their empty, duplicate ids unchanged. -/
theorem column_invariant_counterexample :
    ((addColumnOfType ⟨[], [], [defaultView 5]⟩ 7 "text" "Text" "").columns.all
        (fun c => c.typeOptions.isSome)) = false ∧
      jsonHandlerRead 0
          (.parsed ⟨.array [emptyIdColumnA, emptyIdColumnB], .array [], .missing⟩) =
        .ok ⟨[migrateColumnJson emptyIdColumnA, migrateColumnJson emptyIdColumnB],
             .array [], [defaultView 0]⟩ ∧
      (migrateColumnJson emptyIdColumnA).id = "" ∧
      (migrateColumnJson emptyIdColumnB).id = (migrateColumnJson emptyIdColumnA).id := by
  refine ⟨by decide, rfl, rfl, rfl⟩

/-- `onCellChange` inside `TableRenderer.renderRow`: mutate the first
cell found for the column, or push a new cell. -/
def editCell (row : Row) (colId newValue : String) : Row :=
  match row.find? (fun c => c.column == colId) with
  | some _ => row.replaceF (fun c => if c.column == colId then some ⟨c.column, newValue⟩ else none)
  | none => row ++ [⟨colId, newValue⟩]

/-- The redraw condition of `onCellChange`
(`src/TableRenderer.ts` lines 352-354): re-render if the edited column is
in the current sort rules, or if there are any active filters at all. -/
def shouldRerenderAfterCellEdit (data : TableData) (colId : String) : Bool :=
  (getCurrentSortRules data).any (fun rule => rule.columnId == colId) || hasActiveFilters data

/-- Written from the spec's words, for comparison with
`shouldRerenderAfterCellEdit`: the edited column "participates in the
active sort rule or in some active filter rule". -/
def specEditedColumnParticipates (data : TableData) (colId : String) : Bool :=
  (getCurrentSortRules data).any (fun rule => rule.columnId == colId) ||
    (getCurrentFilterRules data).any (fun rule => rule.columnId == colId)

/-- A table with a text column `c1`, a filtered column `c2`, no sort
rule, and one `contains` filter on `c2`. -/
def filterOnOtherColumnTable : TableData :=
  { columns := [{ id := "c1", name := "A", type := "text" },
                { id := "c2", name := "B", type := "text" }],
    rows := [[⟨"c1", "x"⟩, ⟨"c2", "y"⟩]],
    views := [{ id := "v", name := "Default", sort := some [],
                filter := some [⟨"f1", "c2", "contains", some "y"⟩] }] }

/-- C3 counterexample: with an active filter on `c2` and no sort rule,
editing `c1` — a column that participates in neither the active sort nor
any filter rule — still triggers the full redraw, because the code checks
`hasActiveFilters()` instead of whether a filter references the edited
column.  The claim's "skips the full redraw" is false here. -/
theorem cell_edit_redraw_counterexample :
    shouldRerenderAfterCellEdit filterOnOtherColumnTable "c1" = true ∧
      specEditedColumnParticipates filterOnOtherColumnTable "c1" = false := by decide

/-- C3 (amended): after a cell edit the full redraw is skipped exactly
when the edited column is not referenced by the active sort rules and no
filter rule is active at all; any active filter — whatever column it
references — forces the full redraw. -/
theorem cell_edit_redraw_condition (data : TableData) (colId : String) :
    shouldRerenderAfterCellEdit data colId = false ↔
      (∀ rule ∈ getCurrentSortRules data, rule.columnId ≠ colId) ∧
        getCurrentFilterRules data = [] := by
  unfold shouldRerenderAfterCellEdit hasActiveFilters
  rw [Bool.or_eq_false_iff]
  constructor
  · rintro ⟨hs, hf⟩
    constructor
    · intro rule hmem heq
      rw [List.any_eq_false] at hs
      have := hs rule hmem
      rw [heq] at this
      simp at this
    · rcases h : getCurrentFilterRules data with _ | ⟨a, l⟩
      · rfl
      · rw [h] at hf; simp at hf
  · rintro ⟨hs, hf⟩
    constructor
    · rw [List.any_eq_false]
      intro rule hmem
      simpa using hs rule hmem
    · rw [hf]; rfl

/-- `deleteColumn` inside `TableRenderer.showEditColumnDialog`: splice
the column out at its index and splice the first matching cell out of
every row. -/
def deleteColumn (data : TableData) (colIndex : Nat) : TableData :=
  match data.columns[colIndex]? with
  | none => data
  | some col =>
      { data with
        columns := data.columns.eraseIdx colIndex,
        rows := data.rows.map (fun row => row.eraseP (fun c => c.column == col.id)) }

/-- The column drag-drop handler in `TableRenderer.renderHeader`:
`splice(draggedColumnIndex, 1)` then `splice(targetColumnIndex, 0,
draggedColumn)`.  JS `splice` clamps an out-of-range insertion index to
the array length, hence the `min`. -/
def reorderColumn (data : TableData) (src tgt : Nat) : TableData :=
  match data.columns[src]? with
  | none => data
  | some col =>
      { data with
        columns :=
          List.insertIdx (min tgt (data.columns.eraseIdx src).length) col
            (data.columns.eraseIdx src) }

/-- The row delete button handler in `TableRenderer.renderBody`:
`this.data.rows.splice(originalRowIndex, 1)`. -/
def deleteRow (data : TableData) (rowIndex : Nat) : TableData :=
  { data with rows := data.rows.eraseIdx rowIndex }

theorem eraseP_eq_filter_of_countP_le_one {α : Type} (p : α → Bool) :
    ∀ l : List α, l.countP p ≤ 1 → l.eraseP p = l.filter (fun a => !(p a)) := by
  intro l
  induction l with
  | nil => intro _; rfl
  | cons x xs ih =>
      intro hcount
      by_cases hx : p x = true
      · rw [List.eraseP_cons_of_pos hx, List.filter_cons_of_neg (by simp [hx])]
        have hzero : xs.countP p = 0 := by
          rw [List.countP_cons_of_pos _ _ hx] at hcount
          omega
        rw [List.countP_eq_zero] at hzero
        rw [List.filter_eq_self.mpr]
        intro a ha
        simp [hzero a ha]
      · rw [List.eraseP_cons_of_neg (by simpa using hx),
          List.filter_cons_of_pos (by simp [hx])]
        rw [List.countP_cons_of_neg _ _ (by simpa using hx)] at hcount
        rw [ih hcount]

/-- C8: deleting the column at `colIndex` removes exactly that column
definition (the survivors keep their relative order: the result is the
`take`/`drop` split around the index) and removes from every row exactly
the cells referencing the deleted column's id, leaving every other cell
untouched.  The hypothesis is the data-model invariant that a row holds
at most one cell per column id (the code splices only the first match). -/
theorem delete_column_cascade (data : TableData) (colIndex : Nat) (col : ColumnDef)
    (hcol : data.columns[colIndex]? = some col)
    (huniq : ∀ row ∈ data.rows, row.countP (fun c => c.column == col.id) ≤ 1) :
    (deleteColumn data colIndex).columns =
        data.columns.take colIndex ++ data.columns.drop (colIndex + 1) ∧
      (deleteColumn data colIndex).rows =
        data.rows.map (fun row => row.filter (fun c => !(c.column == col.id))) := by
  unfold deleteColumn
  rw [hcol]
  constructor
  · exact List.eraseIdx_eq_take_drop_succ _ _
  · simp only
    apply List.map_congr_left
    intro row hrow
    exact eraseP_eq_filter_of_countP_le_one _ row (huniq row hrow)

/-- A concrete two-column table used to exercise `deleteColumn`. -/
def twoColumnTable : TableData :=
  { columns := [{ id := "c1", name := "A", type := "text" },
                { id := "c2", name := "B", type := "checkbox" }],
    rows := [[⟨"c1", "x"⟩, ⟨"c2", "true"⟩], [⟨"c2", "false"⟩]],
    views := [defaultView 0] }

theorem delete_column_cascade_witness :
    (deleteColumn twoColumnTable 0).columns =
        twoColumnTable.columns.take 0 ++ twoColumnTable.columns.drop 1 ∧
      (deleteColumn twoColumnTable 0).rows =
        twoColumnTable.rows.map (fun row => row.filter (fun c => !(c.column == "c1"))) :=
  delete_column_cascade twoColumnTable 0 { id := "c1", name := "A", type := "text" }
    (by decide) (by decide)

/-! ## Add row (`TableRenderer.renderAddRowButton`)

The handler builds a plain JS object `newRowData` keyed by column id,
then turns it into a cell list with `Object.entries`.  A string-keyed JS
object is modelled as an association list in insertion order
(`Object.entries` returns exactly that order for the non-numeric keys
the plugin generates; none of the claim's facts depend on the within-row
cell order). -/

/-- The keys of an association list, in order. -/
def recKeys (m : List (String × String)) : List String := m.map (·.1)

/-- Lookup in an association list (first matching key). -/
def recLookup (m : List (String × String)) (k : String) : Option String :=
  (m.find? (fun p => p.1 == k)).map (·.2)

/-- JS object assignment `m[k] = v`: overwrite in place when the key is
present, append otherwise. -/
def recordSet (m : List (String × String)) (k v : String) : List (String × String) :=
  if m.any (fun p => p.1 == k) then m.map (fun p => if p.1 == k then (k, v) else p)
  else m ++ [(k, v)]

/-- `col.type === 'checkbox' ? 'false' : ''`. -/
def addRowDefaultValue (col : ColumnDef) : String :=
  if col.type == "checkbox" then "false" else ""

/-- The first loop of the add-row handler:
`newRowData[col.id] = col.type === 'checkbox' ? 'false' : ''`. -/
def addRowDefaults (cols : List ColumnDef) : List (String × String) :=
  cols.foldl (fun m col => recordSet m col.id (addRowDefaultValue col)) []

/-- One iteration of the second loop:
`if (rule.operator === 'equals' && rule.value && newRowData.hasOwnProperty(rule.columnId))
newRowData[rule.columnId] = rule.value`. -/
def prefillStep (m : List (String × String)) (rule : FilterRule) : List (String × String) :=
  if rule.operator == "equals" && truthyStr rule.value &&
      m.any (fun p => p.1 == rule.columnId)
  then recordSet m rule.columnId (rule.value.getD "")
  else m

/-- The second loop of the add-row handler over the active filter rules. -/
def addRowPrefill (filters : List FilterRule) (m : List (String × String)) :
    List (String × String) :=
  filters.foldl prefillStep m

/-- `Object.entries(newRowData).map(([colId, val]) => ({column, value}))`. -/
def newRowFor (data : TableData) : Row :=
  (addRowPrefill (getCurrentFilterRules data) (addRowDefaults data.columns)).map
    (fun p => ⟨p.1, p.2⟩)

/-- The add-row click handler: push the new row onto the canonical row
array. -/
def addRow (data : TableData) : TableData :=
  { data with rows := data.rows ++ [newRowFor data] }

/-- Written from the spec's words: the value the new row should hold for
a column — the (last) active `equals` filter's value when one with a
non-empty value targets the column, the type-appropriate default
otherwise. -/
def addRowExpectedValue (filters : List FilterRule) (col : ColumnDef) : String :=
  match filters.reverse.find? (fun rule =>
      rule.operator == "equals" && truthyStr rule.value && rule.columnId == col.id) with
  | some rule => rule.value.getD ""
  | none => addRowDefaultValue col

theorem recordSet_keys_of_any (m : List (String × String)) (k v : String)
    (h : m.any (fun p => p.1 == k) = true) :
    recKeys (recordSet m k v) = recKeys m := by
  unfold recordSet recKeys
  rw [if_pos h, List.map_map]
  apply List.map_congr_left
  intro p _
  by_cases hp : p.1 = k
  · simp [hp]
  · simp [hp, beq_eq_false_iff_ne.mpr hp]

theorem recordSet_of_not_any (m : List (String × String)) (k v : String)
    (h : m.any (fun p => p.1 == k) = false) :
    recordSet m k v = m ++ [(k, v)] := by
  unfold recordSet
  rw [h]
  simp

theorem lookup_mapUpdate_ne (m : List (String × String)) (k' v k : String) (hne : k ≠ k') :
    recLookup (m.map (fun p => if p.1 == k' then (k', v) else p)) k = recLookup m k := by
  induction m with
  | nil => rfl
  | cons p t ih =>
      unfold recLookup at *
      by_cases hp : p.1 = k'
      · rw [List.map_cons, if_pos (by simp [hp])]
        rw [List.find?_cons_of_neg _ (by simp; exact fun h => hne h.symm),
          List.find?_cons_of_neg _ (by simp [hp]; exact fun h => hne h.symm)]
        exact ih
      · rw [List.map_cons, if_neg (by simpa using hp)]
        by_cases hk : p.1 = k
        · rw [List.find?_cons_of_pos _ (by simp [hk]), List.find?_cons_of_pos _ (by simp [hk])]
        · rw [List.find?_cons_of_neg _ (by simpa using hk),
            List.find?_cons_of_neg _ (by simpa using hk)]
          exact ih

theorem lookup_mapUpdate_self (m : List (String × String)) (k' v : String) :
    recLookup (m.map (fun p => if p.1 == k' then (k', v) else p)) k' =
      if m.any (fun p => p.1 == k') then some v else none := by
  induction m with
  | nil => rfl
  | cons p t ih =>
      unfold recLookup at *
      by_cases hp : p.1 = k'
      · rw [List.map_cons, if_pos (by simp [hp])]
        rw [List.find?_cons_of_pos _ (by simp), List.any_cons, if_pos (by simp [hp])]
        rfl
      · rw [List.map_cons, if_neg (by simpa using hp)]
        rw [List.find?_cons_of_neg _ (by simpa using hp), List.any_cons]
        rw [show (p.1 == k') = false from beq_eq_false_iff_ne.mpr hp]
        simpa using ih

theorem recordSet_lookup_present (m : List (String × String)) (k' v k : String)
    (hany : m.any (fun p => p.1 == k') = true) :
    recLookup (recordSet m k' v) k = if k == k' then some v else recLookup m k := by
  unfold recordSet
  rw [if_pos hany]
  by_cases hk : k = k'
  · subst hk
    rw [if_pos (by simp), lookup_mapUpdate_self, if_pos hany]
  · rw [if_neg (by simpa using hk), lookup_mapUpdate_ne m k' v k hk]

theorem recLookup_append_left (m l : List (String × String)) (k : String)
    (hany : m.any (fun p => p.1 == k) = true) :
    recLookup (m ++ l) k = recLookup m k := by
  unfold recLookup
  rw [List.find?_append]
  rw [List.any_eq_true] at hany
  obtain ⟨p, hp, hpk⟩ := hany
  have : (m.find? (fun p => p.1 == k)).isSome := by
    rw [List.find?_isSome]
    exact ⟨p, hp, hpk⟩
  rcases h : m.find? (fun p => p.1 == k) with _ | q
  · rw [h] at this; cases this
  · rw [h]; rfl

theorem any_key_of_recKeys (m : List (String × String)) (c : String) :
    m.any (fun p => p.1 == c) = (recKeys m).any (fun x => x == c) := by
  induction m with
  | nil => rfl
  | cons p t ih =>
      unfold recKeys at *
      rw [List.map_cons, List.any_cons, List.any_cons, ih]

theorem recLookup_append_right_single (m : List (String × String)) (k' v k : String)
    (hnone : m.any (fun p => p.1 == k) = false) :
    recLookup (m ++ [(k', v)]) k = if k == k' then some v else none := by
  unfold recLookup
  rw [List.find?_append]
  have : m.find? (fun p => p.1 == k) = none := by
    rw [List.find?_eq_none]
    intro p hp
    rw [List.any_eq_false] at hnone
    exact hnone p hp
  rw [this]
  by_cases hk : k = k'
  · subst hk
    rw [Option.none_or, List.find?_cons_of_pos _ (by simp)]
    simp
  · rw [Option.none_or, List.find?_cons_of_neg _ (by simp; exact fun h => hk h.symm)]
    rw [if_neg (by simpa using hk)]
    rfl

theorem addRowDefaults_aux (cols : List ColumnDef) :
    ∀ m : List (String × String),
      (∀ c ∈ cols, m.any (fun p => p.1 == c.id) = false) →
      cols.Pairwise (fun a b => a.id ≠ b.id) →
      recKeys (cols.foldl (fun m col => recordSet m col.id (addRowDefaultValue col)) m) =
          recKeys m ++ cols.map (·.id) ∧
        (∀ k, m.any (fun p => p.1 == k) = true →
          recLookup (cols.foldl (fun m col => recordSet m col.id (addRowDefaultValue col)) m) k
            = recLookup m k) ∧
        ∀ col ∈ cols,
          recLookup (cols.foldl (fun m col => recordSet m col.id (addRowDefaultValue col)) m)
              col.id
            = some (addRowDefaultValue col) := by
  induction cols with
  | nil =>
      intro m _ _
      exact ⟨by simp [recKeys], fun k _ => rfl, by simp⟩
  | cons c cs ih =>
      intro m hfresh hdist
      have hfc : m.any (fun p => p.1 == c.id) = false := hfresh c (List.mem_cons_self c cs)
      have hm' : recordSet m c.id (addRowDefaultValue c) =
          m ++ [(c.id, addRowDefaultValue c)] :=
        recordSet_of_not_any _ _ _ hfc
      rw [List.pairwise_cons] at hdist
      obtain ⟨hcd, hdist'⟩ := hdist
      have hfresh' : ∀ c' ∈ cs,
          (m ++ [(c.id, addRowDefaultValue c)]).any (fun p => p.1 == c'.id) = false := by
        intro c' hc'
        rw [List.any_append, hfresh c' (List.mem_cons_of_mem _ hc')]
        simp [beq_eq_false_iff_ne.mpr (hcd c' hc')]
      obtain ⟨ihk, ihpres, ihval⟩ := ih (m ++ [(c.id, addRowDefaultValue c)]) hfresh' hdist'
      rw [List.foldl_cons, hm']
      refine ⟨?_, ?_, ?_⟩
      · rw [ihk]
        unfold recKeys
        rw [List.map_append]
        simp
      · intro k hk
        have hk' : (m ++ [(c.id, addRowDefaultValue c)]).any (fun p => p.1 == k) = true := by
          rw [List.any_append, hk]
          rfl
        rw [ihpres k hk']
        exact recLookup_append_left m _ k hk
      · intro col hcol
        rcases List.mem_cons.mp hcol with rfl | hcol'
        · have hk' : (m ++ [(col.id, addRowDefaultValue col)]).any
              (fun p => p.1 == col.id) = true := by
            rw [List.any_append]
            simp
          rw [ihpres col.id hk',
            recLookup_append_right_single m col.id (addRowDefaultValue col) col.id hfc]
          simp
        · exact ihval col hcol'

theorem addRowDefaults_spec (cols : List ColumnDef)
    (hdist : cols.Pairwise (fun a b => a.id ≠ b.id)) :
    recKeys (addRowDefaults cols) = cols.map (·.id) ∧
      ∀ col ∈ cols, recLookup (addRowDefaults cols) col.id = some (addRowDefaultValue col) := by
  obtain ⟨hk, _, hv⟩ := addRowDefaults_aux cols [] (fun c _ => rfl) hdist
  exact ⟨hk, hv⟩

theorem prefillStep_keys (m : List (String × String)) (rule : FilterRule) :
    recKeys (prefillStep m rule) = recKeys m := by
  unfold prefillStep
  by_cases hc : (rule.operator == "equals" && truthyStr rule.value &&
      m.any (fun p => p.1 == rule.columnId)) = true
  · rw [if_pos hc]
    refine recordSet_keys_of_any m _ _ ?_
    simp only [Bool.and_eq_true] at hc
    exact hc.2
  · rw [if_neg hc]

theorem prefill_keys (fs : List FilterRule) :
    ∀ m : List (String × String), recKeys (addRowPrefill fs m) = recKeys m := by
  induction fs with
  | nil => intro m; rfl
  | cons r t ih =>
      intro m
      show recKeys (addRowPrefill t (prefillStep m r)) = recKeys m
      rw [ih, prefillStep_keys]

theorem prefillStep_lookup (m : List (String × String)) (r : FilterRule) (k : String) :
    recLookup (prefillStep m r) k =
      if (r.operator == "equals" && truthyStr r.value &&
          m.any (fun p => p.1 == r.columnId)) && (r.columnId == k)
      then some (r.value.getD "") else recLookup m k := by
  unfold prefillStep
  by_cases hc : (r.operator == "equals" && truthyStr r.value &&
      m.any (fun p => p.1 == r.columnId)) = true
  · rw [if_pos hc]
    have hany : m.any (fun p => p.1 == r.columnId) = true := by
      simp only [Bool.and_eq_true] at hc
      exact hc.2
    rw [recordSet_lookup_present m _ _ _ hany]
    by_cases hk : r.columnId = k
    · rw [if_pos (by subst hk; simp), if_pos (by rw [hc]; simp [hk])]
    · rw [if_neg (by simp; exact fun h => hk h.symm),
        if_neg (by simp only [Bool.and_eq_true]; rintro ⟨-, h⟩; exact hk (by simpa using h))]
  · rw [if_neg hc,
      if_neg (by
        simp only [Bool.and_eq_true]
        rintro ⟨h1, -⟩
        exact hc (by simp only [Bool.and_eq_true]; exact h1))]

theorem prefill_lookup_fold (fs : List FilterRule) :
    ∀ (m : List (String × String)) (k : String),
      recLookup (addRowPrefill fs m) k =
        fs.foldl (fun v r =>
          if (r.operator == "equals" && truthyStr r.value &&
              m.any (fun p => p.1 == r.columnId)) && (r.columnId == k)
          then some (r.value.getD "") else v) (recLookup m k) := by
  induction fs with
  | nil => intro m k; rfl
  | cons r t ih =>
      intro m k
      show recLookup (addRowPrefill t (prefillStep m r)) k = _
      rw [ih (prefillStep m r) k, List.foldl_cons, prefillStep_lookup]
      congr 1
      funext v r'
      have hany : (prefillStep m r).any (fun p => p.1 == r'.columnId) =
          m.any (fun p => p.1 == r'.columnId) := by
        rw [any_key_of_recKeys, any_key_of_recKeys, prefillStep_keys]
      rw [hany]

theorem foldl_choice_eq_reverse_find {β γ : Type} (p : β → Bool) (f : β → γ) :
    ∀ (l : List β) (init : γ),
      l.foldl (fun v b => if p b then f b else v) init =
        match l.reverse.find? p with
        | some b => f b
        | none => init := by
  intro l
  induction l with
  | nil => intro init; rfl
  | cons b t ih =>
      intro init
      rw [List.foldl_cons, ih, List.reverse_cons, List.find?_append, List.find?_singleton]
      cases h : t.reverse.find? p with
      | none =>
          rw [Option.none_or]
          by_cases hb : p b = true
          · simp [hb]
          · simp [hb]
      | some c => simp

theorem getCellValue_of_record (m : List (String × String)) (k : String) :
    getCellValue (m.map (fun p => (⟨p.1, p.2⟩ : CellData))) k = (recLookup m k).getD "" := by
  unfold getCellValue recLookup
  rw [List.find?_map]
  have hpred : ((fun c : CellData => c.column == k) ∘
      (fun p : String × String => (⟨p.1, p.2⟩ : CellData))) = fun p => p.1 == k := rfl
  rw [hpred]
  cases m.find? (fun p => p.1 == k) with
  | none => rfl
  | some q => rfl

/-- C6: with pairwise-distinct column ids (the data-model invariant),
adding a row appends exactly one new row at the end of the canonical row
sequence; the new row carries exactly one cell per existing column (its
cell columns are the table's column ids, in order), and each cell holds
the `equals`-filter prefill value when an active `equals` rule with a
non-empty value targets that column (the last such rule, as the handler
applies the rules in order), and the type-appropriate default —
`"false"` for checkbox columns, `""` otherwise — when none does. -/
theorem add_row_defaults_and_prefill (data : TableData)
    (hdist : data.columns.Pairwise (fun a b => a.id ≠ b.id)) :
    (addRow data).rows = data.rows ++ [newRowFor data] ∧
      (newRowFor data).map (·.column) = data.columns.map (·.id) ∧
      ∀ col ∈ data.columns,
        getCellValue (newRowFor data) col.id =
          addRowExpectedValue (getCurrentFilterRules data) col := by
  obtain ⟨hkeys0, hval0⟩ := addRowDefaults_spec data.columns hdist
  refine ⟨rfl, ?_, ?_⟩
  · show ((addRowPrefill (getCurrentFilterRules data) (addRowDefaults data.columns)).map
        (fun p => (⟨p.1, p.2⟩ : CellData))).map (·.column) = data.columns.map (·.id)
    rw [List.map_map]
    show recKeys (addRowPrefill (getCurrentFilterRules data) (addRowDefaults data.columns)) =
      data.columns.map (·.id)
    rw [prefill_keys, hkeys0]
  · intro col hcol
    have hanycol : (addRowDefaults data.columns).any (fun p => p.1 == col.id) = true := by
      rw [any_key_of_recKeys, hkeys0, List.any_eq_true]
      exact ⟨col.id, List.mem_map_of_mem _ hcol, by simp⟩
    show getCellValue ((addRowPrefill (getCurrentFilterRules data)
        (addRowDefaults data.columns)).map (fun p => (⟨p.1, p.2⟩ : CellData))) col.id = _
    rw [getCellValue_of_record, prefill_lookup_fold,
      foldl_choice_eq_reverse_find
        (fun r => (r.operator == "equals" && truthyStr r.value &&
          (addRowDefaults data.columns).any (fun p => p.1 == r.columnId)) &&
            (r.columnId == col.id))
        (fun r => some (r.value.getD "")) (getCurrentFilterRules data)
        (recLookup (addRowDefaults data.columns) col.id)]
    have hpred : (fun r : FilterRule =>
        (r.operator == "equals" && truthyStr r.value &&
          (addRowDefaults data.columns).any (fun p => p.1 == r.columnId)) &&
            (r.columnId == col.id)) =
        fun r : FilterRule =>
          r.operator == "equals" && truthyStr r.value && (r.columnId == col.id) := by
      funext r
      by_cases hk : r.columnId = col.id
      · have : (addRowDefaults data.columns).any (fun p => p.1 == r.columnId) = true := by
          rw [hk]; exact hanycol
        rw [this, hk]
        simp
      · have hkf : (r.columnId == col.id) = false := beq_eq_false_iff_ne.mpr hk
        rw [hkf]
        simp
    rw [hpred]
    unfold addRowExpectedValue
    rw [hval0 col hcol]
    cases (getCurrentFilterRules data).reverse.find? (fun r =>
        r.operator == "equals" && truthyStr r.value && (r.columnId == col.id)) with
    | none => rfl
    | some r => rfl

/-- A table with a text `status` column and a checkbox `done` column,
plus an active `equals` filter `status = "Done"`. -/
def statusDoneTable : TableData :=
  { columns := [{ id := "status", name := "Status", type := "text" },
                { id := "done", name := "Done", type := "checkbox" }],
    rows := [],
    views := [{ id := "v", name := "Default", sort := some [],
                filter := some [⟨"f1", "status", "equals", some "Done"⟩] }] }

theorem add_row_defaults_and_prefill_witness :
    (addRow statusDoneTable).rows = statusDoneTable.rows ++ [newRowFor statusDoneTable] ∧
      (newRowFor statusDoneTable).map (·.column) = statusDoneTable.columns.map (·.id) ∧
      ∀ col ∈ statusDoneTable.columns,
        getCellValue (newRowFor statusDoneTable) col.id =
          addRowExpectedValue (getCurrentFilterRules statusDoneTable) col :=
  add_row_defaults_and_prefill statusDoneTable (by decide)

/-! ## Sort engine (`src/SortHandler.ts`, `sortDataInMemory`)

`Array.prototype.sort` is modelled by a stable insertion sort
(`sortByCmp`); the handler's comparator is consistent — it is induced by
a key function into a totally preordered set — and for consistent
comparators the ECMAScript stable `sort` yields the unique stable sorted
permutation, which stable insertion sort computes. -/

/-- The code points removed by the handler's `stripEmojis` regex. -/
def isEmojiStripped (c : Char) : Bool :=
  let n := c.toNat
  (0x1F600 ≤ n && n ≤ 0x1F64F) || (0x1F300 ≤ n && n ≤ 0x1F5FF) ||
    (0x1F680 ≤ n && n ≤ 0x1F6FF) || (0x1F1E0 ≤ n && n ≤ 0x1F1FF) ||
    (0x2600 ≤ n && n ≤ 0x26FF) || (0x2700 ≤ n && n ≤ 0x27BF) ||
    (n == 0xFE0F) || (0x1F900 ≤ n && n ≤ 0x1F9FF) || (0x1FA70 ≤ n && n ≤ 0x1FAFF)

/-- `stripEmojis`: drop the emoji/pictographic code points, then `trim`. -/
def stripEmojis (s : String) : String :=
  ⟨jsTrimList (s.data.filter (fun c => !isEmojiStripped c))⟩

/-- `parseInt(s, 10)`: skip leading whitespace, optional sign, then the
longest decimal-digit prefix; `none` models `NaN`. -/
def jsParseInt (s : String) : Option Int :=
  let cs := s.data.dropWhile Char.isWhitespace
  let sgn : Int := match cs with
    | '-' :: _ => -1
    | _ => 1
  let rest := match cs with
    | '-' :: t => t
    | '+' :: t => t
    | _ => cs
  let digits := rest.takeWhile Char.isDigit
  if digits.isEmpty then none
  else some (sgn * ((digits.foldl (fun n c => n * 10 + (c.toNat - 48)) 0 : Nat) : Int))

/-- `isNaN(t) ? 0 : t`. -/
def intOrZero : Option Int → Int
  | none => 0
  | some z => z

/-- Three-way code-point comparison of character lists; the model of the
sign of `localeCompare` (a total comparison that is `0` exactly on equal
lists — the properties the claims depend on). -/
def cmpCharList : List Char → List Char → Int
  | [], [] => 0
  | [], _ :: _ => -1
  | _ :: _, [] => 1
  | a :: as, b :: bs =>
      if a < b then -1 else if b < a then 1 else cmpCharList as bs

/-- String comparison via `cmpCharList`. -/
def cmpStr (a b : String) : Int := cmpCharList a.data b.data

/-- The type-specific non-empty comparison of `sortDataInMemory`'s
`switch (sortColumn.type)`. -/
def cmpNonEmpty (ty : String) (a b : String) : Int :=
  if ty == "date" then intOrZero (jsParseInt a) - intOrZero (jsParseInt b)
  else if ty == "checkbox" then
    let boolA := a == "true"
    let boolB := b == "true"
    if boolA == boolB then 0 else if boolA then 1 else -1
  else cmpStr (jsToLower (stripEmojis a)) (jsToLower (stripEmojis b))

/-- The full row comparator of `sortDataInMemory`: empty values first
(always-last policy, direction-independent), then the type-specific
comparison, negated for a non-`asc` direction. -/
def cmpRows (columnId ty direction : String) (rowA rowB : Row) : Int :=
  let valueA := getCellValue rowA columnId
  let valueB := getCellValue rowB columnId
  if valueA == "" && valueB == "" then 0
  else if valueA == "" then 1
  else if valueB == "" then -1
  else
    let comparison := cmpNonEmpty ty valueA valueB
    if direction == "asc" then comparison else -comparison

/-- Stable insertion into a sorted list: the new element goes after every
element that does not compare strictly greater (so equal elements keep
their original relative order). -/
def insertSorted {α : Type} (cmp : α → α → Int) : List α → α → List α
  | [], x => [x]
  | y :: ys, x => if cmp y x ≤ 0 then y :: insertSorted cmp ys x else x :: y :: ys

/-- Stable insertion sort: the result of the ECMAScript stable `sort`
for a consistent comparator. -/
def sortByCmp {α : Type} (cmp : α → α → Int) (l : List α) : List α :=
  l.foldl (insertSorted cmp) []

/-- `SortHandler.sortDataInMemory`: no rules — leave order; unknown sort
column — warn and leave order; otherwise sort the rows in place with the
row comparator built from `rules[0]`. -/
def sortDataInMemory (data : TableData) : TableData :=
  match getCurrentSortRules data with
  | [] => data
  | rule :: _ =>
      match data.columns.find? (fun c => c.id == rule.columnId) with
      | none => data
      | some sortColumn =>
          { data with
            rows := sortByCmp (cmpRows rule.columnId sortColumn.type rule.direction) data.rows }

/-- `SortHandler.setCurrentSortRules`: store the rules in the first view
(no-op when no view exists, which the constructor prevents). -/
def setCurrentSortRules (data : TableData) (rules : List SortRule) : TableData :=
  match data.views with
  | v :: vs => { data with views := ({ v with sort := some rules } : ViewDef) :: vs }
  | [] => data

section SortLemmas

variable {α : Type} (cmp : α → α → Int)

theorem insertSorted_perm : ∀ (l : List α) (x : α), (insertSorted cmp l x).Perm (x :: l) := by
  intro l x
  induction l with
  | nil => exact List.Perm.refl _
  | cons y ys ih =>
      unfold insertSorted
      by_cases h : cmp y x ≤ 0
      · rw [if_pos h]
        exact (ih.cons y).trans (List.Perm.swap x y ys)
      · rw [if_neg h]

theorem sortByCmp_perm (l : List α) : (sortByCmp cmp l).Perm l := by
  suffices h : ∀ (l acc : List α), (l.foldl (insertSorted cmp) acc).Perm (acc ++ l) by
    simpa using h l []
  intro l
  induction l with
  | nil => intro acc; simp
  | cons x t ih =>
      intro acc
      rw [List.foldl_cons]
      exact (ih _).trans
        (((insertSorted_perm cmp acc x).append_right t).trans List.perm_middle.symm)

theorem insertSorted_append_of_le (l : List α) (x : α) (h : ∀ y ∈ l, cmp y x ≤ 0) :
    insertSorted cmp l x = l ++ [x] := by
  induction l with
  | nil => rfl
  | cons y ys ih =>
      unfold insertSorted
      rw [if_pos (h y (List.mem_cons_self y ys)), ih (fun z hz => h z (List.mem_cons_of_mem y hz))]
      rfl

theorem insertSorted_cons_pos {y x : α} (ys : List α) (h : cmp y x ≤ 0) :
    insertSorted cmp (y :: ys) x = y :: insertSorted cmp ys x := by
  simp only [insertSorted]
  rw [if_pos h]

theorem insertSorted_cons_neg {y x : α} (ys : List α) (h : ¬cmp y x ≤ 0) :
    insertSorted cmp (y :: ys) x = x :: y :: ys := by
  simp only [insertSorted]
  rw [if_neg h]

theorem insertSorted_mid (x : α) :
    ∀ (A E : List α), (∀ y ∈ E, 0 < cmp y x) →
      ∃ A1 A2, A = A1 ++ A2 ∧ insertSorted cmp (A ++ E) x = A1 ++ x :: (A2 ++ E) := by
  intro A
  induction A with
  | nil =>
      intro E hE
      refine ⟨[], [], rfl, ?_⟩
      cases E with
      | nil => rfl
      | cons y ys =>
          rw [List.nil_append,
            insertSorted_cons_neg cmp ys (by have := hE y (List.mem_cons_self y ys); omega)]
          rfl
  | cons a A' ih =>
      intro E hE
      by_cases ha : cmp a x ≤ 0
      · obtain ⟨A1, A2, hsplit, heq⟩ := ih E hE
        refine ⟨a :: A1, A2, by rw [hsplit]; rfl, ?_⟩
        rw [List.cons_append, insertSorted_cons_pos cmp (A' ++ E) ha, heq]
        rfl
      · refine ⟨[], a :: A', rfl, ?_⟩
        rw [List.cons_append, insertSorted_cons_neg cmp (A' ++ E) ha]
        rfl

theorem mem_insertSorted {l : List α} {x a : α} (h : a ∈ insertSorted cmp l x) :
    a = x ∨ a ∈ l :=
  by simpa using (insertSorted_perm cmp l x).mem_iff.mp h

theorem insertSorted_pairwise
    (htrans : ∀ a b c, cmp a b ≤ 0 → cmp b c ≤ 0 → cmp a c ≤ 0)
    (hflip : ∀ a b, cmp a b = -(cmp b a))
    {l : List α} (x : α) (hl : l.Pairwise (fun a b => cmp a b ≤ 0)) :
    (insertSorted cmp l x).Pairwise (fun a b => cmp a b ≤ 0) := by
  induction l with
  | nil => simp [insertSorted]
  | cons y ys ih =>
      rw [List.pairwise_cons] at hl
      obtain ⟨hy, hys⟩ := hl
      by_cases h : cmp y x ≤ 0
      · rw [insertSorted_cons_pos cmp ys h]
        rw [List.pairwise_cons]
        constructor
        · intro z hz
          rcases mem_insertSorted cmp hz with rfl | hz'
          · exact h
          · exact hy z hz'
        · exact ih hys
      · rw [insertSorted_cons_neg cmp ys h]
        rw [List.pairwise_cons]
        constructor
        · intro z hz
          have hxy : cmp x y ≤ 0 := by
            rw [hflip]
            omega
          rcases List.mem_cons.mp hz with rfl | hz'
          · exact hxy
          · exact htrans x y z hxy (hy z hz')
        · exact List.Pairwise.cons hy hys

theorem sortByCmp_pairwise
    (htrans : ∀ a b c, cmp a b ≤ 0 → cmp b c ≤ 0 → cmp a c ≤ 0)
    (hflip : ∀ a b, cmp a b = -(cmp b a)) (l : List α) :
    (sortByCmp cmp l).Pairwise (fun a b => cmp a b ≤ 0) := by
  suffices h : ∀ (l acc : List α), acc.Pairwise (fun a b => cmp a b ≤ 0) →
      (l.foldl (insertSorted cmp) acc).Pairwise (fun a b => cmp a b ≤ 0) by
    exact h l [] (by simp)
  intro l
  induction l with
  | nil => intro acc hacc; exact hacc
  | cons x t ih =>
      intro acc hacc
      rw [List.foldl_cons]
      exact ih _ (insertSorted_pairwise cmp htrans hflip x hacc)

end SortLemmas

section EmptySplit

variable {α : Type}

theorem sortByCmp_split (cmp : α → α → Int) (emp : α → Bool)
    (hEmpLe : ∀ x y, emp x = true → cmp y x ≤ 0)
    (hEmpGt : ∀ x y, emp y = true → emp x = false → 0 < cmp y x) :
    ∀ (l A E : List α), (∀ r ∈ A, emp r = false) → (∀ r ∈ E, emp r = true) →
      ∃ A', l.foldl (insertSorted cmp) (A ++ E) = A' ++ (E ++ l.filter (fun r => emp r)) ∧
        (∀ r ∈ A', emp r = false) ∧
        A'.Perm (A ++ l.filter (fun r => !emp r)) := by
  intro l
  induction l with
  | nil =>
      intro A E hA hE
      exact ⟨A, by simp, hA, by simp⟩
  | cons x t ih =>
      intro A E hA hE
      rw [List.foldl_cons]
      by_cases hx : emp x = true
      · have hins : insertSorted cmp (A ++ E) x = (A ++ E) ++ [x] :=
          insertSorted_append_of_le cmp (A ++ E) x (fun y _ => hEmpLe x y hx)
        rw [hins, List.append_assoc]
        obtain ⟨A', heq, hA', hperm⟩ := ih A (E ++ [x]) hA (by
          intro r hr
          rcases List.mem_append.mp hr with hr' | hr'
          · exact hE r hr'
          · rw [List.mem_singleton.mp hr']
            exact hx)
        refine ⟨A', ?_, hA', ?_⟩
        · rw [heq, List.filter_cons_of_pos hx]
          simp
        · rw [List.filter_cons_of_neg (by simp [hx])]
          exact hperm
      · have hx' : emp x = false := by simpa using hx
        obtain ⟨A1, A2, hsplit, hins⟩ :=
          insertSorted_mid cmp x A E (fun y hy => hEmpGt x y (hE y hy) hx')
        rw [hins]
        have hassoc : A1 ++ x :: (A2 ++ E) = (A1 ++ x :: A2) ++ E := by simp
        rw [hassoc]
        obtain ⟨A', heq, hA', hperm⟩ := ih (A1 ++ x :: A2) E (by
          intro r hr
          rcases List.mem_append.mp hr with hr' | hr'
          · exact hA r (by rw [hsplit]; exact List.mem_append_left _ hr')
          · rcases List.mem_cons.mp hr' with rfl | hr''
            · exact hx'
            · exact hA r (by rw [hsplit]; exact List.mem_append_right _ hr'')) hE
        refine ⟨A', ?_, hA', ?_⟩
        · rw [heq, List.filter_cons_of_neg (by simp [hx'])]
        · rw [List.filter_cons_of_pos (by simp [hx'])]
          refine hperm.trans ?_
          refine (List.perm_middle.append_right _).trans ?_
          have hmid : (x :: (A1 ++ A2)) ++ t.filter (fun r => !emp r) =
              x :: (A ++ t.filter (fun r => !emp r)) := by
            rw [hsplit]
            rfl
          rw [hmid]
          exact List.perm_middle.symm

theorem sortByCmp_empty_split (cmp : α → α → Int) (emp : α → Bool)
    (hEmpLe : ∀ x y, emp x = true → cmp y x ≤ 0)
    (hEmpGt : ∀ x y, emp y = true → emp x = false → 0 < cmp y x) (l : List α) :
    ∃ A', sortByCmp cmp l = A' ++ l.filter (fun r => emp r) ∧
      (∀ r ∈ A', emp r = false) ∧
      A'.Perm (l.filter (fun r => !emp r)) := by
  obtain ⟨A', heq, hA', hperm⟩ :=
    sortByCmp_split cmp emp hEmpLe hEmpGt l [] [] (by simp) (by simp)
  exact ⟨A', by simpa using heq, hA', by simpa using hperm⟩

end EmptySplit

theorem cmpCharList_flip : ∀ a b : List Char, cmpCharList a b = -(cmpCharList b a) := by
  intro a
  induction a with
  | nil => intro b; cases b <;> simp [cmpCharList]
  | cons x xs ih =>
      intro b
      cases b with
      | nil => simp [cmpCharList]
      | cons y ys =>
          simp only [cmpCharList]
          by_cases h1 : x < y
          · have h2 : ¬y < x := lt_asymm h1
            simp [h1, h2]
          · by_cases h2 : y < x
            · simp [h1, h2]
            · simp [h1, h2, ih ys]

theorem cmpCharList_le_trans :
    ∀ a b c : List Char, cmpCharList a b ≤ 0 → cmpCharList b c ≤ 0 → cmpCharList a c ≤ 0 := by
  intro a
  induction a with
  | nil =>
      intro b c _ _
      cases c <;> simp [cmpCharList]
  | cons x xs ih =>
      intro b c hab hbc
      cases b with
      | nil => simp [cmpCharList] at hab
      | cons y ys =>
          cases c with
          | nil => simp [cmpCharList] at hbc
          | cons z zs =>
              simp only [cmpCharList] at hab hbc ⊢
              by_cases h1 : x < y
              · by_cases h2 : y < z
                · simp [lt_trans h1 h2]
                · by_cases h3 : z < y
                  · simp [h2, h3] at hbc
                  · have hyz : y = z := le_antisymm (not_lt.mp h3) (not_lt.mp h2)
                    simp [hyz ▸ h1]
              · by_cases h1' : y < x
                · simp [h1, h1'] at hab
                · have hxy : x = y := le_antisymm (not_lt.mp h1') (not_lt.mp h1)
                  subst hxy
                  rw [if_neg (lt_irrefl x), if_neg (lt_irrefl x)] at hab
                  by_cases h2 : x < z
                  · simp [h2]
                  · by_cases h3 : z < x
                    · simp [h2, h3] at hbc
                    · have hxz : x = z := le_antisymm (not_lt.mp h3) (not_lt.mp h2)
                      subst hxz
                      rw [if_neg (by exact lt_irrefl x), if_neg (by exact lt_irrefl x)] at hbc ⊢
                      exact ih ys zs hab hbc

theorem cmpNonEmpty_flip (ty a b : String) : cmpNonEmpty ty a b = -(cmpNonEmpty ty b a) := by
  unfold cmpNonEmpty
  by_cases hd : (ty == "date") = true
  · rw [if_pos hd, if_pos hd]
    omega
  · rw [if_neg hd, if_neg hd]
    by_cases hc : (ty == "checkbox") = true
    · rw [if_pos hc, if_pos hc]
      cases hA : (a == "true") <;> cases hB : (b == "true") <;> simp
    · rw [if_neg hc, if_neg hc]
      unfold cmpStr
      exact cmpCharList_flip _ _

theorem cmpNonEmpty_le_trans (ty a b c : String) (hab : cmpNonEmpty ty a b ≤ 0)
    (hbc : cmpNonEmpty ty b c ≤ 0) : cmpNonEmpty ty a c ≤ 0 := by
  unfold cmpNonEmpty at *
  by_cases hd : (ty == "date") = true
  · rw [if_pos hd] at *
    omega
  · rw [if_neg hd] at *
    by_cases hc : (ty == "checkbox") = true
    · rw [if_pos hc] at *
      cases hA : (a == "true") <;> cases hB : (b == "true") <;> cases hC : (c == "true") <;>
        simp_all
    · rw [if_neg hc] at *
      unfold cmpStr at *
      exact cmpCharList_le_trans _ _ _ hab hbc

theorem cmpRows_of_empty_empty {cid ty dir : String} {a b : Row}
    (ha : getCellValue a cid = "") (hb : getCellValue b cid = "") :
    cmpRows cid ty dir a b = 0 := by
  unfold cmpRows
  simp [ha, hb]

theorem cmpRows_of_empty_left {cid ty dir : String} {a b : Row}
    (ha : getCellValue a cid = "") (hb : ¬getCellValue b cid = "") :
    cmpRows cid ty dir a b = 1 := by
  unfold cmpRows
  simp [ha, hb]

theorem cmpRows_of_empty_right {cid ty dir : String} {a b : Row}
    (ha : ¬getCellValue a cid = "") (hb : getCellValue b cid = "") :
    cmpRows cid ty dir a b = -1 := by
  unfold cmpRows
  simp [ha, hb]

theorem cmpRows_of_nonempty {cid ty dir : String} {a b : Row}
    (ha : ¬getCellValue a cid = "") (hb : ¬getCellValue b cid = "") :
    cmpRows cid ty dir a b =
      if dir == "asc" then cmpNonEmpty ty (getCellValue a cid) (getCellValue b cid)
      else -(cmpNonEmpty ty (getCellValue a cid) (getCellValue b cid)) := by
  unfold cmpRows
  simp [ha, hb]

theorem cmpRows_flip (cid ty dir : String) (a b : Row) :
    cmpRows cid ty dir a b = -(cmpRows cid ty dir b a) := by
  by_cases ha : getCellValue a cid = "" <;> by_cases hb : getCellValue b cid = ""
  · rw [cmpRows_of_empty_empty ha hb, cmpRows_of_empty_empty hb ha]
    simp
  · rw [cmpRows_of_empty_left ha hb, cmpRows_of_empty_right hb ha]
    simp
  · rw [cmpRows_of_empty_right ha hb, cmpRows_of_empty_left hb ha]
  · rw [cmpRows_of_nonempty ha hb, cmpRows_of_nonempty hb ha]
    have hf := cmpNonEmpty_flip ty (getCellValue a cid) (getCellValue b cid)
    by_cases hd : (dir == "asc") = true
    · rw [if_pos hd, if_pos hd]
      omega
    · rw [if_neg hd, if_neg hd]
      omega

theorem cmpRows_le_trans (cid ty dir : String) (a b c : Row)
    (hab : cmpRows cid ty dir a b ≤ 0) (hbc : cmpRows cid ty dir b c ≤ 0) :
    cmpRows cid ty dir a c ≤ 0 := by
  by_cases ha : getCellValue a cid = ""
  · by_cases hb : getCellValue b cid = ""
    · by_cases hc : getCellValue c cid = ""
      · rw [cmpRows_of_empty_empty ha hc]
      · rw [cmpRows_of_empty_left hb hc] at hbc
        omega
    · rw [cmpRows_of_empty_left ha hb] at hab
      omega
  · by_cases hc : getCellValue c cid = ""
    · rw [cmpRows_of_empty_right ha hc]
      omega
    · by_cases hb : getCellValue b cid = ""
      · rw [cmpRows_of_empty_left hb hc] at hbc
        omega
      · rw [cmpRows_of_nonempty ha hb] at hab
        rw [cmpRows_of_nonempty hb hc] at hbc
        rw [cmpRows_of_nonempty ha hc]
        have f1 := cmpNonEmpty_flip ty (getCellValue a cid) (getCellValue b cid)
        have f2 := cmpNonEmpty_flip ty (getCellValue b cid) (getCellValue c cid)
        have f3 := cmpNonEmpty_flip ty (getCellValue a cid) (getCellValue c cid)
        by_cases hd : (dir == "asc") = true
        · rw [if_pos hd] at *
          exact cmpNonEmpty_le_trans ty _ _ _ hab hbc
        · rw [if_neg hd] at *
          have tr := cmpNonEmpty_le_trans ty (getCellValue c cid) (getCellValue b cid)
            (getCellValue a cid) (by omega) (by omega)
          omega

theorem cmpRows_desc_asc_swap (cid ty : String) (a b : Row)
    (ha : ¬getCellValue a cid = "") (hb : ¬getCellValue b cid = "") :
    cmpRows cid ty "desc" a b = cmpRows cid ty "asc" b a := by
  rw [cmpRows_of_nonempty ha hb, cmpRows_of_nonempty hb ha]
  have hf := cmpNonEmpty_flip ty (getCellValue a cid) (getCellValue b cid)
  rw [if_neg (by decide), if_pos (by decide)]
  omega

theorem sortDataInMemory_rows (data : TableData) (rule : SortRule) (rest : List SortRule)
    (col : ColumnDef) (hrules : getCurrentSortRules data = rule :: rest)
    (hcol : data.columns.find? (fun c => c.id == rule.columnId) = some col) :
    (sortDataInMemory data).rows =
      sortByCmp (cmpRows rule.columnId col.type rule.direction) data.rows := by
  unfold sortDataInMemory
  rw [hrules]
  split
  · next h => cases h
  · next rule' rest' h =>
      injection h with h1 h2
      subst h1
      split
      · next hfind => rw [hcol] at hfind; cases hfind
      · next sortColumn hfind =>
          rw [hcol] at hfind
          injection hfind with h3
          subst h3
          rfl

theorem cmpRows_le_of_empty_right (cid ty dir : String) (x y : Row)
    (hx : (getCellValue x cid == "") = true) : cmpRows cid ty dir y x ≤ 0 := by
  have hx' : getCellValue x cid = "" := by simpa using hx
  by_cases hy : getCellValue y cid = ""
  · rw [cmpRows_of_empty_empty hy hx']
  · rw [cmpRows_of_empty_right hy hx']
    omega

theorem cmpRows_pos_of_empty_left (cid ty dir : String) (x y : Row)
    (hy : (getCellValue y cid == "") = true) (hx : (getCellValue x cid == "") = false) :
    0 < cmpRows cid ty dir y x := by
  have hy' : getCellValue y cid = "" := by simpa using hy
  have hx' : ¬getCellValue x cid = "" := by simpa using hx
  rw [cmpRows_of_empty_left hy' hx']
  omega

/-- C1: for every table whose active sort rule targets an existing
column, and for either direction, after `sortDataInMemory` the row array
splits into a non-empty-valued prefix followed by exactly the
empty-valued rows (every empty-valued row comes after every
non-empty-valued row, and the empty-valued rows keep their original
relative order — they compare equal); the comparator returns `0` on any
two empty-valued rows. -/
theorem sort_empty_last (data : TableData) (rule : SortRule) (rest : List SortRule)
    (col : ColumnDef)
    (hrules : getCurrentSortRules data = rule :: rest)
    (hcol : data.columns.find? (fun c => c.id == rule.columnId) = some col) :
    (∃ A, (sortDataInMemory data).rows =
        A ++ data.rows.filter (fun r => getCellValue r rule.columnId == "") ∧
        (∀ r ∈ A, (getCellValue r rule.columnId == "") = false) ∧
        A.Perm (data.rows.filter (fun r => !(getCellValue r rule.columnId == "")))) ∧
      ∀ r1 r2 : Row, getCellValue r1 rule.columnId = "" → getCellValue r2 rule.columnId = "" →
        cmpRows rule.columnId col.type rule.direction r1 r2 = 0 := by
  constructor
  · rw [sortDataInMemory_rows data rule rest col hrules hcol]
    exact sortByCmp_empty_split (cmpRows rule.columnId col.type rule.direction)
      (fun r => getCellValue r rule.columnId == "")
      (fun x y hx => cmpRows_le_of_empty_right _ _ _ x y hx)
      (fun x y hy hx => cmpRows_pos_of_empty_left _ _ _ x y hy hx)
      data.rows
  · intro r1 r2 h1 h2
    exact cmpRows_of_empty_empty h1 h2

/-- The spec's concrete scenario (§8 item 7): text column `c1`, date
column `c2`, three rows whose `c2` values are `"100"`, `""`, `"50"`,
sorted by `c2`. -/
def specScenarioTable (direction : String) : TableData :=
  { columns := [{ id := "c1", name := "A", type := "text" },
                { id := "c2", name := "B", type := "date" }],
    rows := [[⟨"c1", "b"⟩, ⟨"c2", "100"⟩], [⟨"c1", "a"⟩, ⟨"c2", ""⟩],
             [⟨"c1", ""⟩, ⟨"c2", "50"⟩]],
    views := [{ id := "v", name := "Default", sort := some [⟨"c2", direction⟩],
                filter := some [] }] }

theorem sort_empty_last_witness :
    (∃ A, (sortDataInMemory (specScenarioTable "asc")).rows =
        A ++ (specScenarioTable "asc").rows.filter (fun r => getCellValue r "c2" == "") ∧
        (∀ r ∈ A, (getCellValue r "c2" == "") = false) ∧
        A.Perm ((specScenarioTable "asc").rows.filter
          (fun r => !(getCellValue r "c2" == "")))) ∧
      ∀ r1 r2 : Row, getCellValue r1 "c2" = "" → getCellValue r2 "c2" = "" →
        cmpRows "c2" "date" "asc" r1 r2 = 0 :=
  sort_empty_last (specScenarioTable "asc") ⟨"c2", "asc"⟩ []
    { id := "c2", name := "B", type := "date" } rfl (by decide)

theorem eq_of_perm_of_pairwise {α : Type} (r : α → α → Prop) :
    ∀ l₁ l₂ : List α, l₁.Perm l₂ → l₁.Pairwise r → l₂.Pairwise r →
      (∀ a ∈ l₁, ∀ b ∈ l₁, r a b → r b a → a = b) → l₁ = l₂ := by
  intro l₁
  induction l₁ with
  | nil =>
      intro l₂ hp _ _ _
      exact (List.Perm.eq_nil hp.symm).symm
  | cons a t ih =>
      intro l₂ hp hp1 hp2 hant
      cases l₂ with
      | nil =>
          have := hp.eq_nil
          cases this
      | cons b t₂ =>
          have hab : a = b := by
            rcases List.mem_cons.mp (hp.mem_iff.mp (List.mem_cons_self a t)) with h | h
            · exact h
            · have hba : r b a := (List.pairwise_cons.mp hp2).1 a h
              have hbmem : b ∈ a :: t := hp.mem_iff.mpr (List.mem_cons_self b t₂)
              rcases List.mem_cons.mp hbmem with h' | h'
              · exact h'.symm
              · have hab' : r a b := (List.pairwise_cons.mp hp1).1 b h'
                exact hant a (List.mem_cons_self a t) b (List.mem_cons_of_mem a h') hab' hba
          subst hab
          have ht : t.Perm t₂ := hp.cons_inv
          rw [ih t₂ ht (List.pairwise_cons.mp hp1).2 (List.pairwise_cons.mp hp2).2
            (fun x hx y hy => hant x (List.mem_cons_of_mem _ hx) y (List.mem_cons_of_mem _ hy))]

theorem setCurrentSortRules_basic (data : TableData) (rules : List SortRule)
    (v : ViewDef) (vs : List ViewDef) (hviews : data.views = v :: vs) :
    (setCurrentSortRules data rules).columns = data.columns ∧
      (setCurrentSortRules data rules).rows = data.rows ∧
      getCurrentSortRules (setCurrentSortRules data rules) = rules := by
  unfold setCurrentSortRules
  rw [hviews]
  exact ⟨rfl, rfl, rfl⟩

/-- A table with two rows whose `c1` values compare equal under the
case-insensitive text comparison (`"a"` and `"A"`) but which are
distinct rows. -/
def tieBreakTable : TableData :=
  { columns := [{ id := "c1", name := "A", type := "text" }],
    rows := [[⟨"c1", "a"⟩, ⟨"note", "first"⟩], [⟨"c1", "A"⟩, ⟨"note", "second"⟩]],
    views := [defaultView 0] }

/-- C7 counterexample: the sort is stable, so two non-empty rows whose
values compare equal (`"a"` vs `"A"`, case-insensitive) keep their
original relative order under *both* directions — the descending order
is not the exact reverse of the ascending relative order. -/
theorem direction_reversal_counterexample :
    (sortDataInMemory (setCurrentSortRules tieBreakTable [⟨"c1", "desc"⟩])).rows.filter
        (fun r => !(getCellValue r "c1" == "")) ≠
      ((sortDataInMemory (setCurrentSortRules tieBreakTable [⟨"c1", "asc"⟩])).rows.filter
        (fun r => !(getCellValue r "c1" == ""))).reverse := by decide

/-- C7 (amended): among the rows with non-empty values for the sorted
column, *provided no two distinct rows' values compare equal* under the
column's comparison, sorting with direction `desc` produces exactly the
reverse of the relative order the rows have under `asc`; rows with equal
values keep their original relative order under both directions (stable
sort), so the unrestricted claim fails. -/
theorem direction_reversal_distinct (data : TableData) (columnId : String) (col : ColumnDef)
    (v : ViewDef) (vs : List ViewDef) (hviews : data.views = v :: vs)
    (hcol : data.columns.find? (fun c => c.id == columnId) = some col)
    (hdistinct : ∀ r1 ∈ data.rows, ∀ r2 ∈ data.rows,
      ¬getCellValue r1 columnId = "" → ¬getCellValue r2 columnId = "" →
      cmpRows columnId col.type "asc" r1 r2 = 0 → r1 = r2) :
    (sortDataInMemory (setCurrentSortRules data [⟨columnId, "desc"⟩])).rows.filter
        (fun r => !(getCellValue r columnId == "")) =
      ((sortDataInMemory (setCurrentSortRules data [⟨columnId, "asc"⟩])).rows.filter
        (fun r => !(getCellValue r columnId == ""))).reverse := by
  have hbasicA := setCurrentSortRules_basic data [⟨columnId, "asc"⟩] v vs hviews
  have hbasicD := setCurrentSortRules_basic data [⟨columnId, "desc"⟩] v vs hviews
  have hrowsA : (sortDataInMemory (setCurrentSortRules data [⟨columnId, "asc"⟩])).rows =
      sortByCmp (cmpRows columnId col.type "asc") data.rows := by
    rw [sortDataInMemory_rows (setCurrentSortRules data [⟨columnId, "asc"⟩])
      ⟨columnId, "asc"⟩ [] col hbasicA.2.2 (by rw [hbasicA.1]; exact hcol), hbasicA.2.1]
  have hrowsD : (sortDataInMemory (setCurrentSortRules data [⟨columnId, "desc"⟩])).rows =
      sortByCmp (cmpRows columnId col.type "desc") data.rows := by
    rw [sortDataInMemory_rows (setCurrentSortRules data [⟨columnId, "desc"⟩])
      ⟨columnId, "desc"⟩ [] col hbasicD.2.2 (by rw [hbasicD.1]; exact hcol), hbasicD.2.1]
  obtain ⟨Aa, heqA, hAa, hpermA⟩ := sortByCmp_empty_split (cmpRows columnId col.type "asc")
    (fun r => getCellValue r columnId == "")
    (fun x y hx => cmpRows_le_of_empty_right _ _ _ x y hx)
    (fun x y hy hx => cmpRows_pos_of_empty_left _ _ _ x y hy hx) data.rows
  obtain ⟨Ad, heqD, hAd, hpermD⟩ := sortByCmp_empty_split (cmpRows columnId col.type "desc")
    (fun r => getCellValue r columnId == "")
    (fun x y hx => cmpRows_le_of_empty_right _ _ _ x y hx)
    (fun x y hy hx => cmpRows_pos_of_empty_left _ _ _ x y hy hx) data.rows
  have hfilter : ∀ A : List Row, (∀ r ∈ A, (getCellValue r columnId == "") = false) →
      (A ++ data.rows.filter (fun r => getCellValue r columnId == "")).filter
        (fun r => !(getCellValue r columnId == "")) = A := by
    intro A hA
    rw [List.filter_append,
      List.filter_eq_self.mpr (fun r hr => by rw [hA r hr]; rfl),
      List.filter_eq_nil_iff.mpr (fun r hr => by
        have hm := (List.mem_filter.mp hr).2
        simp [hm]),
      List.append_nil]
  rw [hrowsA, hrowsD, heqA, heqD, hfilter Aa hAa, hfilter Ad hAd]
  have hsubA : ∀ r ∈ Aa, r ∈ data.rows ∧ ¬getCellValue r columnId = "" := by
    intro r hr
    have := List.mem_filter.mp (hpermA.mem_iff.mp hr)
    exact ⟨this.1, by simpa using this.2⟩
  have hsubD : ∀ r ∈ Ad, r ∈ data.rows ∧ ¬getCellValue r columnId = "" := by
    intro r hr
    have := List.mem_filter.mp (hpermD.mem_iff.mp hr)
    exact ⟨this.1, by simpa using this.2⟩
  have hpa : Aa.Pairwise (fun a b => cmpRows columnId col.type "asc" a b ≤ 0) := by
    have hp := sortByCmp_pairwise (cmpRows columnId col.type "asc")
      (fun a b c => cmpRows_le_trans columnId col.type "asc" a b c)
      (fun a b => cmpRows_flip columnId col.type "asc" a b) data.rows
    rw [heqA] at hp
    exact (List.pairwise_append.mp hp).1
  have hpd : Ad.Pairwise (fun a b => cmpRows columnId col.type "desc" a b ≤ 0) := by
    have hp := sortByCmp_pairwise (cmpRows columnId col.type "desc")
      (fun a b c => cmpRows_le_trans columnId col.type "desc" a b c)
      (fun a b => cmpRows_flip columnId col.type "desc" a b) data.rows
    rw [heqD] at hp
    exact (List.pairwise_append.mp hp).1
  have hrevA : Aa.reverse.Pairwise (fun a b => cmpRows columnId col.type "asc" b a ≤ 0) :=
    List.pairwise_reverse.mpr hpa
  have hAd' : Ad.Pairwise (fun a b => cmpRows columnId col.type "asc" b a ≤ 0) := by
    refine hpd.imp_of_mem ?_
    intro a b ha hb hab
    have hna : ¬getCellValue a columnId = "" := (hsubD a ha).2
    have hnb : ¬getCellValue b columnId = "" := (hsubD b hb).2
    rw [cmpRows_desc_asc_swap columnId col.type a b hna hnb] at hab
    exact hab
  have hperm : Ad.Perm Aa.reverse :=
    hpermD.trans (hpermA.symm.trans (Aa.reverse_perm).symm)
  exact eq_of_perm_of_pairwise _ Ad Aa.reverse hperm hAd' hrevA (by
    intro a ha b hb hab hba
    have hflipab := cmpRows_flip columnId col.type "asc" a b
    have hz : cmpRows columnId col.type "asc" a b = 0 := by omega
    exact hdistinct a (hsubD a ha).1 b (hsubD b hb).1 (hsubD a ha).2 (hsubD b hb).2 hz)

/-- A single-text-column table whose non-empty values are pairwise
distinct. -/
def distinctValuesTable : TableData :=
  { columns := [{ id := "c1", name := "A", type := "text" }],
    rows := [[⟨"c1", "b"⟩], [⟨"c1", "a"⟩], [⟨"c1", ""⟩], [⟨"c1", "c"⟩]],
    views := [defaultView 0] }

theorem direction_reversal_distinct_witness :
    (sortDataInMemory (setCurrentSortRules distinctValuesTable [⟨"c1", "desc"⟩])).rows.filter
        (fun r => !(getCellValue r "c1" == "")) =
      ((sortDataInMemory (setCurrentSortRules distinctValuesTable [⟨"c1", "asc"⟩])).rows.filter
        (fun r => !(getCellValue r "c1" == ""))).reverse :=
  direction_reversal_distinct distinctValuesTable "c1"
    { id := "c1", name := "A", type := "text" } (defaultView 0) [] rfl (by decide) (by decide)

theorem perm_cons_eraseIdx {α : Type} :
    ∀ (l : List α) (i : Nat) (x : α), l[i]? = some x → l.Perm (x :: l.eraseIdx i) := by
  intro l
  induction l with
  | nil =>
      intro i x h
      simp at h
  | cons a t ih =>
      intro i x h
      cases i with
      | zero =>
          rw [List.getElem?_cons_zero] at h
          injection h with h1
          subst h1
          exact List.Perm.refl _
      | succ j =>
          rw [List.getElem?_cons_succ] at h
          exact ((ih j x h).cons a).trans (List.Perm.swap x a _)

theorem generated_column_id_ne_empty (now : Nat) : ("col_" ++ toString now) ≠ "" := by
  intro h
  have hl := congrArg String.length h
  rw [String.length_append] at hl
  have h4 : ("col_" : String).length = 4 := rfl
  have h0 : ("" : String).length = 0 := rfl
  omega

/-- C5 (amended): load-time normalization guarantees the `typeOptions`
half of the invariant — after either handler's successful `read` every
column has a `typeOptions` object — but not the id half: both handlers
return the persisted column ids unchanged, with no non-emptiness or
uniqueness check, so empty or duplicate ids survive a load (see the
counterexample).  The id half, where it already holds, is preserved by
the structural operations: delete column and reorder column keep the id
list a sublist resp. permutation, add row and delete row leave the
columns untouched, and add column appends the non-empty id
`'col_'+Date.now()`, preserving distinctness exactly when that id is not
already in the table; add column does not preserve the `typeOptions`
half for text/checkbox/notelink/date columns (counterexample). -/
theorem column_invariant_status :
    (∀ (now : Nat) (content : JsonContent) (result : ReadResult),
        jsonHandlerRead now content = .ok result →
          ∀ col ∈ result.columns, col.typeOptions.isSome = true) ∧
      (∀ (now : Nat) (content : MdContent) (result : ReadResult),
        mdHandlerRead now content = .ok result →
          ∀ col ∈ result.columns, col.typeOptions.isSome = true) ∧
      (∀ (now : Nat) (cols : List ColumnDef) (rows : RawArr Row) (views : RawArr ViewDef)
          (result : ReadResult),
        jsonHandlerRead now (.parsed ⟨.array cols, rows, views⟩) = .ok result →
          result.columns.map (·.id) = cols.map (·.id)) ∧
      (∀ (now : Nat) (cols : List ColumnDef) (rows : RawArr Row) (views : RawArr ViewDef)
          (result : ReadResult),
        mdHandlerRead now (.parsed ⟨.array cols, rows, views⟩) = .ok result →
          result.columns.map (·.id) = cols.map (·.id)) ∧
      (∀ (data : TableData) (colIndex : Nat),
        columnIdsOk data.columns → columnIdsOk (deleteColumn data colIndex).columns) ∧
      (∀ (data : TableData) (src tgt : Nat),
        columnIdsOk data.columns → columnIdsOk (reorderColumn data src tgt).columns) ∧
      (∀ data : TableData, (addRow data).columns = data.columns) ∧
      (∀ (data : TableData) (rowIndex : Nat), (deleteRow data rowIndex).columns = data.columns) ∧
      ∀ (data : TableData) (now : Nat) (columnType typeName nameInput : String)
          (extra : AddColumnExtra),
        columnIdsOk data.columns →
        (∀ c ∈ data.columns, c.id ≠ "col_" ++ toString now) →
        columnIdsOk (addColumn data now columnType typeName nameInput extra).columns := by
  refine ⟨load_normalization_typeOptions_present.1,
    load_normalization_typeOptions_present.2, ?_, ?_, ?_, ?_, fun _ => rfl, fun _ _ => rfl, ?_⟩
  · intro now cols rows views result hok
    simp only [jsonHandlerRead] at hok
    by_cases ht : (RawArr.truthy rows : Bool)
    · rw [if_pos ht] at hok
      injection hok with h1
      rw [← h1]
      rw [List.map_map]
      exact List.map_congr_left (fun c _ => migrateColumnJson_id c)
    · rw [if_neg ht] at hok
      cases hok
  · intro now cols rows views result hok
    cases rows with
    | array rs =>
        simp only [mdHandlerRead] at hok
        injection hok with h1
        rw [← h1]
        rw [List.map_map]
        exact List.map_congr_left (fun c _ => migrateColumnMd_id c)
    | missing => cases hok
    | notArray t => cases hok
  · intro data colIndex h
    unfold deleteColumn
    cases hc : data.columns[colIndex]? with
    | none => exact h
    | some col => exact columnIdsOk_of_sublist (List.eraseIdx_sublist _ _) h
  · intro data src tgt h
    unfold reorderColumn
    cases hc : data.columns[src]? with
    | none => exact h
    | some col =>
        refine columnIdsOk_of_perm ?_ h
        have h1 : (List.insertIdx (min tgt (data.columns.eraseIdx src).length) col
            (data.columns.eraseIdx src)).Perm (col :: data.columns.eraseIdx src) :=
          List.perm_insertIdx col _ (Nat.min_le_right _ _)
        exact (perm_cons_eraseIdx data.columns src col hc).trans h1.symm
  · intro data now columnType typeName nameInput extra h hfresh
    unfold addColumn
    constructor
    · intro c hcmem
      rcases List.mem_append.mp hcmem with hold | hnew
      · exact h.1 c hold
      · rw [List.mem_singleton.mp hnew]
        exact generated_column_id_ne_empty now
    · rw [List.pairwise_append]
      refine ⟨h.2, List.pairwise_singleton _ _, ?_⟩
      intro a ha b hb
      rw [List.mem_singleton.mp hb]
      exact hfresh a ha

theorem column_invariant_status_witness :
    (∀ col ∈ [migrateColumnJson legacyDateColumn], col.typeOptions.isSome = true) ∧
      (∀ col ∈ [migrateColumnMd legacyDateColumn], col.typeOptions.isSome = true) ∧
      [migrateColumnJson legacyDateColumn].map (·.id) = [legacyDateColumn].map (·.id) ∧
      [migrateColumnMd legacyDateColumn].map (·.id) = [legacyDateColumn].map (·.id) ∧
      columnIdsOk (deleteColumn twoColumnTable 0).columns ∧
      columnIdsOk (reorderColumn twoColumnTable 0 1).columns ∧
      columnIdsOk (addColumn twoColumnTable 9 "text" "Text" "" .noExtra).columns :=
  ⟨column_invariant_status.1 1 (.parsed ⟨.array [legacyDateColumn], .array [], .missing⟩)
      ⟨[migrateColumnJson legacyDateColumn], .array [], [defaultView 1]⟩ rfl,
    column_invariant_status.2.1 1 (.parsed ⟨.array [legacyDateColumn], .array [], .missing⟩)
      ⟨[migrateColumnMd legacyDateColumn], .array [], [defaultView 1]⟩ rfl,
    column_invariant_status.2.2.1 1 [legacyDateColumn] (.array []) .missing
      ⟨[migrateColumnJson legacyDateColumn], .array [], [defaultView 1]⟩ rfl,
    column_invariant_status.2.2.2.1 1 [legacyDateColumn] (.array []) .missing
      ⟨[migrateColumnMd legacyDateColumn], .array [], [defaultView 1]⟩ rfl,
    column_invariant_status.2.2.2.2.1 twoColumnTable 0 (by decide),
    column_invariant_status.2.2.2.2.2.1 twoColumnTable 0 1 (by decide),
    column_invariant_status.2.2.2.2.2.2.2.2 twoColumnTable 9 "text" "Text" "" .noExtra
      (by decide) (by decide)⟩

end ObsidianTables
